import Mathlib

/-!
# Verification of the Lagrangian microplastic transport model

A shallow embedding of `model.py` (class `MicroplasticTransportModel`).
Machine floats are modelled as exact rationals `ℚ` wherever the Python code
performs only field arithmetic and comparisons; the transcendental
`cos`/`radians` conversion of `_velocity_at` is additionally modelled over `ℝ`
(see the `velocity conversion` section).  Random draws (`np.random.uniform`,
`np.random.normal`) are modelled as explicitly passed oracle functions, so that
every pipeline stage is a pure function of its inputs.
-/

set_option linter.unusedVariables false

namespace MPT

/-- A 2-D numpy array of rationals, row-major: `g[i][j]` is `g.getD i [] |>.getD j 0`. -/
abbrev Grid := List (List ℚ)

/-- Cell lookup `g[i, j]` (0 outside the ragged bounds, used only in-bounds). -/
def getAt (g : Grid) (i j : Nat) : ℚ := (g.getD i []).getD j 0

/-- `g.sum()` for a 2-D array: sum of all cells. -/
def gridSum (g : Grid) : ℚ := (g.map List.sum).sum

/-- `np.zeros_like(g)`. -/
def zerosLike (g : Grid) : Grid := g.map (fun row => row.map (fun _ => 0))

/-- `g` has numpy shape `(r, c)`: `r` rows, each of length `c`. -/
def HasShape (g : Grid) (r c : Nat) : Prop :=
  g.length = r ∧ ∀ row ∈ g, row.length = c

instance (g : Grid) (r c : Nat) : Decidable (HasShape g r c) := by
  unfold HasShape; infer_instance

/-- `conc_map[i, j] += w` (line 261): out-of-range indices leave the array
unchanged, mirroring that the guard on line 260 is checked before the write. -/
def addAt (g : Grid) (i j : Nat) (w : ℚ) : Grid :=
  g.set i ((g.getD i []).set j (getAt g i j + w))

/-- `np.searchsorted(xs, x)` (side `left`) on a sorted axis: the left insertion
point, i.e. the number of axis values strictly below `x`. -/
def searchsorted (xs : List ℚ) (x : ℚ) : Nat :=
  xs.countP (fun a => decide (a < x))

/-- The model state extracted in `__init__`: coordinate axes and the three
field arrays (after `np.nan_to_num`, which the embedding takes as given since
`ℚ` has no NaN). -/
structure Model where
  lats : List ℚ
  lons : List ℚ
  mp_conc : Grid
  u : Grid
  v : Grid

/-- One iteration of the deposition loop of `_particles_to_grid`
(lines 256-261): bin a single `((lat, lon), weight)` pair. -/
def depositOne (m : Model) (g : Grid) (pw : (ℚ × ℚ) × ℚ) : Grid :=
  let i := searchsorted m.lats pw.1.1
  let j := searchsorted m.lons pw.1.2
  if i < m.lats.length ∧ j < m.lons.length then addAt g i j pw.2 else g

/-- `_particles_to_grid` (lines 252-263): start from `np.zeros_like(mp_conc)`
and fold the deposition loop over `zip(positions, weights)`. -/
def particles_to_grid (m : Model) (positions : List (ℚ × ℚ)) (weights : List ℚ) : Grid :=
  (positions.zip weights).foldl (depositOne m) (zerosLike m.mp_conc)

/-- The guard of line 260 fails for the particle `p`: its weight is added to no
cell.  (`0 <= i` always holds since `searchsorted` is a count.) -/
def droppedBy (m : Model) (p : ℚ × ℚ) : Prop :=
  ¬(searchsorted m.lats p.1 < m.lats.length ∧ searchsorted m.lons p.2 < m.lons.length)

instance (m : Model) (p : ℚ × ℚ) : Decidable (droppedBy m p) := by
  unfold droppedBy; infer_instance

/-- `dlat` of `_initialize_particles` (line 179). -/
def dlat (m : Model) : ℚ :=
  if 1 < m.lats.length then m.lats.getD 1 0 - m.lats.getD 0 0 else 1/4

/-- `dlon` of `_initialize_particles` (line 180). -/
def dlon (m : Model) : ℚ :=
  if 1 < m.lons.length then m.lons.getD 1 0 - m.lons.getD 0 0 else 1/4

/-- The row-major cell index pairs visited by the double loop
`for i, lat in enumerate(self.lats): for j, lon in enumerate(self.lons)`. -/
def cellsOf (m : Model) : List (Nat × Nat) :=
  (List.range m.lats.length).flatMap
    (fun i => (List.range m.lons.length).map (fun j => (i, j)))

/-- `_initialize_particles` (lines 174-198).  The `np.random.uniform` position
draws are supplied by the oracle `draw`: `draw i j p` is the `p`-th sampled
`(lat, lon)` pair for cell `(i, j)` — numpy returns exactly `n_per_cell`
samples per positive cell.  The double loop over `enumerate(lats)` /
`enumerate(lons)` appends, per cell with positive concentration, `n_per_cell`
positions and `n_per_cell` copies of the weight `conc / n_per_cell`. -/
def init_particles (m : Model) (n_per_cell : Nat)
    (draw : Nat → Nat → Nat → ℚ × ℚ) : List (ℚ × ℚ) × List ℚ :=
  (cellsOf m).foldl
    (fun acc ij =>
      let conc := getAt m.mp_conc ij.1 ij.2
      if conc ≤ 0 then acc
      else (acc.1 ++ (List.range n_per_cell).map (draw ij.1 ij.2),
            acc.2 ++ List.replicate n_per_cell (conc / n_per_cell)))
    ([], [])

/-- `np.clip(x, lo, hi)` on a scalar. -/
def npClip (x lo hi : ℚ) : ℚ := min (max x lo) hi

/-- `np.clip(g, lo, hi)` on a 2-D array. -/
def clipGrid (g : Grid) (lo hi : ℚ) : Grid :=
  g.map (fun row => row.map (fun x => npClip x lo hi))

/-- Ascending insertion of `x` into a sorted list (helper for `sortQ`). -/
def insertAsc (x : ℚ) : List ℚ → List ℚ
  | [] => [x]
  | y :: ys => if x ≤ y then x :: y :: ys else y :: insertAsc x ys

/-- Ascending sort, modelling the sort performed inside `np.percentile`. -/
def sortQ : List ℚ → List ℚ
  | [] => []
  | x :: xs => insertAsc x (sortQ xs)

/-- `np.percentile(xs, q)` with the default linear-interpolation method:
with the data sorted ascending and `h = q/100 * (n-1)`, interpolate between
the entries at positions `⌊h⌋` and `⌊h⌋ + 1`. -/
def npPercentile (xs : List ℚ) (q : ℚ) : ℚ :=
  let s := sortQ xs
  let h := q * ((s.length : ℚ) - 1) / 100
  let lo := (⌊h⌋).toNat
  let g := h - (⌊h⌋ : ℚ)
  s.getD lo 0 + g * (s.getD (lo + 1) 0 - s.getD lo 0)

/-- `conc[conc > 0]` flattened row-major: the strictly positive cells. -/
def positiveCells (g : Grid) : List ℚ :=
  g.flatten.filter (fun x => decide (0 < x))

/-- Number of cells with `cap < value` (`np.sum(conc > cap_value)`, line 162). -/
def countAbove (g : Grid) (cap : ℚ) : Nat :=
  g.flatten.countP (fun x => decide (cap < x))

/-- `_cap_outliers` (lines 150-172): returns `(conc_capped, n_capped,
cap_value)`.  With no strictly positive cell it returns `(conc, 0, 0)`
(line 155); otherwise the cap is the `percentile`-th percentile of the
positive cells and the array is clipped to `[0, cap]`. -/
def cap_outliers (conc : Grid) (percentile : ℚ) : Grid × Nat × ℚ :=
  let nonzero := positiveCells conc
  if nonzero.length = 0 then (conc, 0, 0)
  else
    let cap_value := npPercentile nonzero percentile
    (clipGrid conc 0 cap_value, countAbove conc cap_value, cap_value)

/-- The capping stage of `run_forecast` (lines 134-142), run when
`cap_percentile` is configured: cap the final snapshot with `_cap_outliers`,
then clip every saved snapshot to `[0, cap_value]` with that same cap.
Returns `(predicted_capped, n_capped, cap_value, capped_timestep_grids)`. -/
def cap_stage (predicted : Grid) (timestep_grids : List Grid) (percentile : ℚ) :
    Grid × Nat × ℚ × List Grid :=
  let r := cap_outliers predicted percentile
  (r.1, r.2.1, r.2.2, timestep_grids.map (fun g => clipGrid g 0 r.2.2))

/-- `np.min` of a rational list (`self.lons.min()`; numpy raises on an empty
array, the embedding returns 0 there — the claims only use it through the
non-negativity test that picks the longitude convention). -/
def npMin : List ℚ → ℚ
  | [] => 0
  | x :: xs => xs.foldl min x

/-- `np.mod(a, b)` — floored modulo, `a - b * ⌊a / b⌋`; lands in `[0, b)` for
`b > 0`. -/
def npMod (a b : ℚ) : ℚ := a - b * (⌊a / b⌋ : ℤ)

/-- The grid's longitude convention (line 214 / line 245): `[0, 360)` iff the
minimum grid longitude is non-negative. -/
def usesLon360 (m : Model) : Prop := 0 ≤ npMin m.lons

instance (m : Model) : Decidable (usesLon360 m) := by
  unfold usesLon360; infer_instance

/-- Longitude normalization into the grid's convention, shared by
`_velocity_at` (lines 214-219) and `_apply_boundaries` (lines 245-248). -/
def wrapLon (m : Model) (lon : ℚ) : ℚ :=
  if 0 ≤ npMin m.lons then npMod lon 360 else npMod (lon + 180) 360 - 180

/-- `_apply_boundaries` (lines 240-250): clip latitude into `[-90, 90]` and
wrap longitude into the grid's convention by modulo arithmetic. -/
def apply_boundaries (m : Model) (positions : List (ℚ × ℚ)) : List (ℚ × ℚ) :=
  positions.map (fun p => (npClip p.1 (-90) 90, wrapLon m p.2))

/-- `positions[:, 0]`.  `np.array` applied to an empty list of coordinate
pairs yields a 1-D array of shape `(0,)` (not `(0, 2)`), on which the column
slice `[:, 0]` raises `IndexError: too many indices for array`; on a nonempty
list it yields shape `(n, 2)` and the slice returns the first column. -/
def col (k : Nat) (positions : List (ℚ × ℚ)) : Except String (List ℚ) :=
  if positions.isEmpty then .error "IndexError"
  else .ok (positions.map (fun p => if k = 0 then p.1 else p.2))

/-- Bilinear interpolation, modelling
`RegularGridInterpolator((lats, lons), f, bounds_error=False, fill_value=0)`
at a single query point: 0 outside the coordinate envelope, otherwise linear
interpolation within the enclosing cell. -/
def interpAt (lats lons : List ℚ) (f : Grid) (lat lon : ℚ) : ℚ :=
  if lat < lats.headD 0 ∨ lats.getLastD 0 < lat ∨
     lon < lons.headD 0 ∨ lons.getLastD 0 < lon then 0
  else
    let i := min (max (searchsorted lats lat) 1) (lats.length - 1)
    let j := min (max (searchsorted lons lon) 1) (lons.length - 1)
    let la0 := lats.getD (i - 1) 0
    let la1 := lats.getD i 0
    let lo0 := lons.getD (j - 1) 0
    let lo1 := lons.getD j 0
    let t := if la1 = la0 then 0 else (lat - la0) / (la1 - la0)
    let s := if lo1 = lo0 then 0 else (lon - lo0) / (lo1 - lo0)
    (1 - t) * ((1 - s) * getAt f (i - 1) (j - 1) + s * getAt f (i - 1) j) +
      t * ((1 - s) * getAt f i (j - 1) + s * getAt f i j)

/-- `_velocity_at` (lines 208-229) over `ℚ`.  The transcendental
`np.cos(np.radians(lat))` is supplied by the oracle `cosd` (its exact-real
reading is `lonRateDenom` below).  Extracts the two coordinate columns
(raising on a degenerate empty array), normalizes longitudes into the grid
convention, interpolates both current components, and converts m/s to
degrees/s. -/
def velocity_at (m : Model) (cosd : ℚ → ℚ) (positions : List (ℚ × ℚ)) :
    Except String (List (ℚ × ℚ)) := do
  let lats ← col 0 positions
  let lons ← col 1 positions
  let lons := lons.map fun x =>
    if 0 ≤ npMin m.lons then npMod x 360 else npMod (x + 180) 360 - 180
  let pts := lats.zip lons
  let u_ms := pts.map fun p => interpAt m.lats m.lons m.u p.1 p.2
  let v_ms := pts.map fun p => interpAt m.lats m.lons m.v p.1 p.2
  return (lats.zip (u_ms.zip v_ms)).map fun q =>
    (q.2.2 / 111000, q.2.1 / (111000 * cosd q.1))

/-- Pointwise `positions + delta` on coordinate-pair arrays. -/
def addPos (a b : List (ℚ × ℚ)) : List (ℚ × ℚ) :=
  a.zipWith (fun p q => (p.1 + q.1, p.2 + q.2)) b

/-- Scalar multiple of a coordinate-pair array. -/
def smulPos (c : ℚ) (a : List (ℚ × ℚ)) : List (ℚ × ℚ) :=
  a.map (fun p => (c * p.1, c * p.2))

/-- `_advect_rk4` (lines 200-206): classical RK4 with four staged velocity
evaluations. -/
def advect_rk4 (m : Model) (cosd : ℚ → ℚ) (positions : List (ℚ × ℚ))
    (dt_seconds : ℚ) : Except String (List (ℚ × ℚ)) := do
  let k1 := smulPos dt_seconds (← velocity_at m cosd positions)
  let k2 := smulPos dt_seconds
    (← velocity_at m cosd (addPos positions (smulPos (1/2) k1)))
  let k3 := smulPos dt_seconds
    (← velocity_at m cosd (addPos positions (smulPos (1/2) k2)))
  let k4 := smulPos dt_seconds (← velocity_at m cosd (addPos positions k3))
  return addPos positions
    (smulPos (1/6) (addPos (addPos k1 (smulPos 2 k2)) (addPos (smulPos 2 k3) k4)))

/-- `_add_diffusion` (lines 231-238).  `std_lat = sqrt(2*K_h*dt)/111000` is
irrational and is supplied as the oracle scalar `stdLat`; the per-particle
standard normal draws are the oracle list `draws`.  The longitude deviation
uses the pre-perturbation latitude (line 234 is evaluated before line 236),
scaled by `1 / cos(latitude)` through the `cosd` oracle. -/
def add_diffusion (positions : List (ℚ × ℚ)) (stdLat : ℚ) (cosd : ℚ → ℚ)
    (draws : List (ℚ × ℚ)) : List (ℚ × ℚ) :=
  positions.zipWith
    (fun p d => (p.1 + stdLat * d.1, p.2 + stdLat / cosd p.1 * d.2)) draws

/-- One iteration of the stepping loop of `run_forecast` (lines 104-106):
advect, then diffuse, then enforce boundaries. -/
def run_step (m : Model) (cosd : ℚ → ℚ) (stdLat : ℚ)
    (noise : Nat → List (ℚ × ℚ)) (dt_seconds : ℚ) (step : Nat)
    (positions : List (ℚ × ℚ)) : Except String (List (ℚ × ℚ)) := do
  let p ← advect_rk4 m cosd positions dt_seconds
  return apply_boundaries m (add_diffusion p stdLat cosd (noise step))

/-- The result triple of `run_forecast`: final concentration, saved snapshot
grids, and their elapsed hours. -/
structure ForecastResult where
  predicted : Grid
  timestep_grids : List Grid
  timestep_hours : List ℚ
deriving Repr, DecidableEq

/-- `run_forecast` (lines 61-148).  Verbose printing is dropped; the random
sources are the oracles `draw` (seeding positions), `stdLat`/`noise`
(diffusion).  Phases: seed particles, save the initial grid at hour 0, fold
the stepping loop over `range n_steps` saving a deposited snapshot every
`save_interval` steps, deposit the final snapshot (appending it, or
overwriting the last save if its hour tag already equals the total), and
finally, when `cap_percentile` is configured, run the capping stage. -/
def run_forecast (m : Model) (cosd : ℚ → ℚ) (draw : Nat → Nat → Nat → ℚ × ℚ)
    (stdLat : ℚ) (noise : Nat → List (ℚ × ℚ)) (particles_per_cell : Nat)
    (dt_hours : ℚ) (n_steps : Nat) (cap_percentile : Option ℚ)
    (save_interval : Nat) : Except String ForecastResult := do
  let pw := init_particles m particles_per_cell draw
  let positions := pw.1
  let weights := pw.2
  let st0 : List (ℚ × ℚ) × List Grid × List ℚ := (positions, [m.mp_conc], [0])
  let st ← (List.range n_steps).foldlM
    (fun st step => do
      let p ← run_step m cosd stdLat noise (dt_hours * 3600) step st.1
      if (step + 1) % save_interval = 0 then
        return (p, st.2.1 ++ [particles_to_grid m p weights],
                st.2.2 ++ [((step : ℚ) + 1) * dt_hours])
      else
        return (p, st.2.1, st.2.2))
    st0
  let predicted := particles_to_grid m st.1 weights
  let grids :=
    if st.2.2.getLastD 0 ≠ (n_steps : ℚ) * dt_hours then st.2.1 ++ [predicted]
    else st.2.1.dropLast ++ [predicted]
  let hours :=
    if st.2.2.getLastD 0 ≠ (n_steps : ℚ) * dt_hours then
      st.2.2 ++ [(n_steps : ℚ) * dt_hours]
    else st.2.2
  match cap_percentile with
  | none => return ⟨predicted, grids, hours⟩
  | some p =>
      let r := cap_stage predicted grids p
      return ⟨r.1, r.2.2.2, hours⟩

/-- The numpy shape of a (rectangular) 2-D array: `(rows, row length)`. -/
def npShape (a : Grid) : Nat × Nat := (a.length, (a.headD []).length)

/-- `a.T` for a rectangular 2-D array: entry `(j, i)` of the result is entry
`(i, j)` of `a`. -/
def npT (a : Grid) : Grid :=
  (List.range (a.headD []).length).map (fun j => a.map (fun row => row.getD j 0))

/-- One field of `_align_array_shapes` (lines 47-59): whenever the field's
shape differs from `(len(lats), len(lons))` the field is transposed; no shape
check is performed afterwards and no error is ever raised. -/
def align_field (expected : Nat × Nat) (a : Grid) : Grid :=
  if npShape a ≠ expected then npT a else a

/-- `a` is rectangular: every row has the length of the first row (numpy
2-D arrays are rectangular by construction). -/
def Rect (a : Grid) : Prop := ∀ row ∈ a, row.length = (a.headD []).length

instance (a : Grid) : Decidable (Rect a) := by
  unfold Rect; infer_instance

/-- The sum of the positive cells of a grid (each cell contributes itself if
positive and 0 otherwise — the mass actually converted into particles). -/
def posSum (g : Grid) : ℚ :=
  (g.map (fun row => (row.map (fun x => if x ≤ 0 then 0 else x)).sum)).sum

/-- Sum truncated to the particles the deposition guard keeps: each pair
contributes its weight if its position is not dropped, 0 otherwise. -/
def keptSum (m : Model) : List ((ℚ × ℚ) × ℚ) → ℚ
  | [] => 0
  | pw :: t => (if droppedBy m pw.1 then 0 else pw.2) + keptSum m t

/-- All cells of a grid are non-negative. -/
def CellsNonneg (g : Grid) : Prop := ∀ row ∈ g, ∀ x ∈ row, 0 ≤ x

instance (g : Grid) : Decidable (CellsNonneg g) := by
  unfold CellsNonneg; infer_instance

/-- 3x3 test grid model: axes `[0, 1, 2]` with spacing 1, all fields zero. -/
def m1 : Model :=
  ⟨[0, 1, 2], [0, 1, 2],
   [[0, 0, 0], [0, 0, 0], [0, 0, 0]],
   [[0, 0, 0], [0, 0, 0], [0, 0, 0]],
   [[0, 0, 0], [0, 0, 0], [0, 0, 0]]⟩

/-- 2x2 test grid model: axes `[0, 1]`, all fields zero (in particular an
all-zero concentration field, so seeding produces no particles). -/
def m2 : Model :=
  ⟨[0, 1], [0, 1],
   [[0, 0], [0, 0]],
   [[0, 0], [0, 0]],
   [[0, 0], [0, 0]]⟩

/-- 2x1 test grid model whose concentration field has a negative cell. -/
def mNeg : Model :=
  ⟨[0, 1], [0], [[-1], [2]], [[0], [0]], [[0], [0]]⟩

/-- 1x2 test grid model with negative longitudes, so the grid establishes the
`[-180, 180)` longitude convention; all fields zero. -/
def mNegLon : Model :=
  ⟨[0], [-180, -179], [[0, 0]], [[0, 0]], [[0, 0]]⟩

/-- A trivial deterministic seeding oracle for concrete evaluations. -/
def draw0 : Nat → Nat → Nat → ℚ × ℚ := fun _ _ _ => (0, 0)

/-- 1x1 test grid model with a single positive concentration cell. -/
def mPos : Model := ⟨[0], [0], [[3]], [[0]], [[0]]⟩

/-- Exact-real reading of the denominator of line 228:
`111000 * np.cos(np.radians(lat))`. -/
noncomputable def lonRateDenom (lat : ℝ) : ℝ :=
  111000 * Real.cos (lat * (Real.pi / 180))

/-- Exact-real reading of line 228: `dlon_dt = u_ms / (111000 * cos(radians(lat)))`,
with no clamping of the latitude or of the resulting rate. -/
noncomputable def dlon_dt (u_ms lat : ℝ) : ℝ := u_ms / lonRateDenom lat

section ListLemmas

variable {α : Type _}

theorem getD_set_self (l : List α) (i : Nat) (x d : α) (h : i < l.length) :
    (l.set i x).getD i d = x := by
  induction l generalizing i with
  | nil => simp at h
  | cons a t ih =>
    cases i with
    | zero => rfl
    | succ i => exact ih i (Nat.lt_of_succ_lt_succ h)

theorem getD_mem_or (l : List α) (n : Nat) (d : α) : l.getD n d ∈ l ∨ l.getD n d = d := by
  induction l generalizing n with
  | nil => right; rfl
  | cons a t ih =>
    cases n with
    | zero => left; exact List.mem_cons_self a t
    | succ n =>
      rcases ih n with h | h
      · left; exact List.mem_cons_of_mem a h
      · right; exact h

theorem sum_set (l : List ℚ) (j : Nat) (x : ℚ) (h : j < l.length) :
    (l.set j x).sum = l.sum - l.getD j 0 + x := by
  induction l generalizing j with
  | nil => simp at h
  | cons a t ih =>
    cases j with
    | zero => simp [List.set]; ring
    | succ j =>
      have := ih j (Nat.lt_of_succ_lt_succ h)
      simp only [List.set, List.sum_cons, List.getD_cons_succ, this]
      ring

theorem mem_set_or (l : List α) (i : Nat) (x a : α) (h : a ∈ l.set i x) :
    a ∈ l ∨ a = x := by
  induction l generalizing i with
  | nil => simp [List.set] at h
  | cons b t ih =>
    cases i with
    | zero =>
      rcases List.mem_cons.1 h with h | h
      · right; exact h
      · left; exact List.mem_cons_of_mem b h
    | succ i =>
      rcases List.mem_cons.1 h with h | h
      · left; exact h ▸ List.mem_cons_self b t
      · rcases ih i h with h | h
        · left; exact List.mem_cons_of_mem b h
        · right; exact h

end ListLemmas

section GridLemmas

theorem row_zero_getD (row : List ℚ) (j : Nat) :
    (row.map (fun _ => (0 : ℚ))).getD j 0 = 0 := by
  rcases getD_mem_or (row.map (fun _ => (0 : ℚ))) j 0 with h | h
  · rcases List.mem_map.1 h with ⟨_, _, hx⟩
    exact hx.symm
  · exact h

theorem mem_zerosLike_getD (g : Grid) (row : List ℚ) (h : row ∈ zerosLike g) (j : Nat) :
    row.getD j 0 = 0 := by
  unfold zerosLike at h
  rcases List.mem_map.1 h with ⟨r0, _, hr⟩
  rw [← hr]
  exact row_zero_getD r0 j

theorem getAt_zerosLike (g : Grid) (i j : Nat) : getAt (zerosLike g) i j = 0 := by
  unfold getAt
  rcases getD_mem_or (zerosLike g) i [] with h | h
  · exact mem_zerosLike_getD g _ h j
  · rw [h]; rfl

theorem gridSum_zerosLike (g : Grid) : gridSum (zerosLike g) = 0 := by
  unfold gridSum zerosLike
  rw [List.map_map]
  have : ∀ r : List ℚ, (List.sum ∘ fun row : List ℚ => row.map fun _ => (0:ℚ)) r = 0 := by
    intro r
    simp
  rw [List.map_congr_left (fun r _ => this r)]
  simp

theorem shape_zerosLike (g : Grid) (r c : Nat) (h : HasShape g r c) :
    HasShape (zerosLike g) r c := by
  obtain ⟨hl, hr⟩ := h
  constructor
  · simpa [zerosLike] using hl
  · intro row hrow
    rcases List.mem_map.1 hrow with ⟨row0, hm, hrow0⟩
    rw [← hrow0]
    simpa using hr row0 hm

theorem cellsNonneg_zerosLike (g : Grid) : CellsNonneg (zerosLike g) := by
  intro row hrow x hx
  rcases List.mem_map.1 hrow with ⟨row0, _, hrow0⟩
  rw [← hrow0] at hx
  rcases List.mem_map.1 hx with ⟨_, _, hx0⟩
  rw [← hx0]

theorem getD_mem (l : List α) (i : Nat) (d : α) (h : i < l.length) : l.getD i d ∈ l := by
  induction l generalizing i with
  | nil => simp at h
  | cons a t ih =>
    cases i with
    | zero => exact List.mem_cons_self a t
    | succ i => exact List.mem_cons_of_mem a (ih i (Nat.lt_of_succ_lt_succ h))

theorem set_of_ge (l : List α) (i : Nat) (x : α) (h : l.length ≤ i) : l.set i x = l := by
  induction l generalizing i with
  | nil => rfl
  | cons a t ih =>
    cases i with
    | zero => simp at h
    | succ i => simp [List.set, ih i (Nat.le_of_succ_le_succ h)]

theorem shape_addAt (g : Grid) (r c : Nat) (i j : Nat) (w : ℚ) (h : HasShape g r c) :
    HasShape (addAt g i j w) r c := by
  obtain ⟨hl, hr⟩ := h
  rcases Nat.lt_or_ge i g.length with hi | hi
  · constructor
    · simpa [addAt] using hl
    · intro row hrow
      rcases mem_set_or _ _ _ _ hrow with hmem | heq
      · exact hr row hmem
      · rw [heq, List.length_set]
        exact hr _ (getD_mem g i [] hi)
  · unfold addAt
    rw [set_of_ge _ _ _ hi]
    exact ⟨hl, hr⟩

theorem getAt_addAt_self (g : Grid) (i j : Nat) (w : ℚ)
    (hi : i < g.length) (hj : j < (g.getD i []).length) :
    getAt (addAt g i j w) i j = getAt g i j + w := by
  unfold addAt getAt
  rw [getD_set_self g i _ [] hi, getD_set_self _ j _ 0 hj]

theorem gridSum_set_row (g : Grid) (i : Nat) (row : List ℚ) (hi : i < g.length) :
    gridSum (g.set i row) = gridSum g - (g.getD i []).sum + row.sum := by
  unfold gridSum
  rw [List.map_set]
  rw [sum_set (g.map List.sum) i row.sum (by simpa using hi)]
  congr 2
  induction g generalizing i with
  | nil => simp at hi
  | cons a t ih =>
    cases i with
    | zero => rfl
    | succ i => exact ih i (Nat.lt_of_succ_lt_succ hi)

theorem gridSum_addAt (g : Grid) (i j : Nat) (w : ℚ)
    (hi : i < g.length) (hj : j < (g.getD i []).length) :
    gridSum (addAt g i j w) = gridSum g + w := by
  unfold addAt
  rw [gridSum_set_row g i _ hi, sum_set _ j _ hj]
  unfold getAt
  ring

theorem cellsNonneg_addAt (g : Grid) (i j : Nat) (w : ℚ)
    (hg : CellsNonneg g) (hw : 0 ≤ w) : CellsNonneg (addAt g i j w) := by
  intro row hrow x hx
  rcases mem_set_or _ _ _ _ hrow with hmem | heq
  · exact hg row hmem x hx
  · subst heq
    rcases mem_set_or _ _ _ _ hx with hmem2 | heq2
    · rcases getD_mem_or g i [] with h | h
      · exact hg _ h x hmem2
      · rw [h] at hmem2; simp at hmem2
    · subst heq2
      have h0 : 0 ≤ getAt g i j := by
        unfold getAt
        rcases getD_mem_or g i [] with h | h
        · rcases getD_mem_or (g.getD i []) j 0 with h2 | h2
          · exact hg _ h _ h2
          · rw [h2]
        · rw [h]; norm_num
      linarith

/-- The deposition guard holds iff the particle is not dropped. -/
theorem depositOne_eq (m : Model) (g : Grid) (pw : (ℚ × ℚ) × ℚ) :
    depositOne m g pw =
      if droppedBy m pw.1 then g
      else addAt g (searchsorted m.lats pw.1.1) (searchsorted m.lons pw.1.2) pw.2 := by
  unfold depositOne droppedBy
  by_cases h : searchsorted m.lats pw.1.1 < m.lats.length ∧
      searchsorted m.lons pw.1.2 < m.lons.length
  · rw [if_pos h, if_neg (not_not_intro h)]
  · rw [if_neg h, if_pos h]

theorem foldl_deposit_shape (m : Model) (l : List ((ℚ × ℚ) × ℚ)) (g : Grid)
    (hg : HasShape g m.lats.length m.lons.length) :
    HasShape (l.foldl (depositOne m) g) m.lats.length m.lons.length := by
  induction l generalizing g with
  | nil => exact hg
  | cons pw t ih =>
    refine ih (depositOne m g pw) ?_
    rw [depositOne_eq]
    by_cases h : droppedBy m pw.1
    · rw [if_pos h]; exact hg
    · rw [if_neg h]; exact shape_addAt _ _ _ _ _ _ hg

theorem foldl_deposit_sum (m : Model) (l : List ((ℚ × ℚ) × ℚ)) (g : Grid)
    (hg : HasShape g m.lats.length m.lons.length) :
    gridSum (l.foldl (depositOne m) g) = gridSum g + keptSum m l := by
  induction l generalizing g with
  | nil => simp [keptSum]
  | cons pw t ih =>
    by_cases h : droppedBy m pw.1
    · have hdep : depositOne m g pw = g := by rw [depositOne_eq, if_pos h]
      rw [List.foldl_cons, hdep, ih g hg]
      simp [keptSum, if_pos h]
    · have hdep : depositOne m g pw =
          addAt g (searchsorted m.lats pw.1.1) (searchsorted m.lons pw.1.2) pw.2 := by
        rw [depositOne_eq, if_neg h]
      have hguard : searchsorted m.lats pw.1.1 < m.lats.length ∧
          searchsorted m.lons pw.1.2 < m.lons.length := by
        unfold droppedBy at h
        exact not_not.1 h
      have hi : searchsorted m.lats pw.1.1 < g.length := by
        rw [hg.1]; exact hguard.1
      have hj : searchsorted m.lons pw.1.2 < (g.getD (searchsorted m.lats pw.1.1) []).length := by
        rw [hg.2 _ (getD_mem g _ [] hi)]
        exact hguard.2
      rw [List.foldl_cons, hdep, ih _ (shape_addAt _ _ _ _ _ _ hg),
        gridSum_addAt g _ _ _ hi hj]
      simp [keptSum, if_neg h]
      ring

theorem foldl_deposit_nonneg (m : Model) (l : List ((ℚ × ℚ) × ℚ)) (g : Grid)
    (hg : CellsNonneg g) (hw : ∀ pw ∈ l, 0 ≤ pw.2) :
    CellsNonneg (l.foldl (depositOne m) g) := by
  induction l generalizing g with
  | nil => exact hg
  | cons pw t ih =>
    refine ih (depositOne m g pw) ?_ (fun q hq => hw q (List.mem_cons_of_mem pw hq))
    rw [depositOne_eq]
    by_cases h : droppedBy m pw.1
    · rw [if_pos h]; exact hg
    · rw [if_neg h]
      exact cellsNonneg_addAt _ _ _ _ hg (hw pw (List.mem_cons_self pw t))

theorem keptSum_le (m : Model) (l : List ((ℚ × ℚ) × ℚ))
    (hw : ∀ pw ∈ l, 0 ≤ pw.2) :
    keptSum m l ≤ (l.map Prod.snd).sum := by
  induction l with
  | nil => simp [keptSum]
  | cons pw t ih =>
    have h0 := hw pw (List.mem_cons_self pw t)
    have ht := ih (fun q hq => hw q (List.mem_cons_of_mem pw hq))
    simp only [keptSum, List.map_cons, List.sum_cons]
    by_cases h : droppedBy m pw.1
    · rw [if_pos h]; linarith
    · rw [if_neg h]; linarith

theorem keptSum_of_no_drop (m : Model) (l : List ((ℚ × ℚ) × ℚ))
    (h : ∀ pw ∈ l, ¬ droppedBy m pw.1) :
    keptSum m l = (l.map Prod.snd).sum := by
  induction l with
  | nil => simp [keptSum]
  | cons pw t ih =>
    simp only [keptSum, List.map_cons, List.sum_cons]
    rw [if_neg (h pw (List.mem_cons_self pw t)),
      ih (fun q hq => h q (List.mem_cons_of_mem pw hq))]

theorem keptSum_eq_iff (m : Model) (l : List ((ℚ × ℚ) × ℚ))
    (hw : ∀ pw ∈ l, 0 < pw.2) :
    keptSum m l = (l.map Prod.snd).sum ↔ ∀ pw ∈ l, ¬ droppedBy m pw.1 := by
  induction l with
  | nil => simp [keptSum]
  | cons pw t ih =>
    have h0 := hw pw (List.mem_cons_self pw t)
    have htw : ∀ q ∈ t, (0:ℚ) < q.2 := fun q hq => hw q (List.mem_cons_of_mem pw hq)
    have hle := keptSum_le m t (fun q hq => le_of_lt (htw q hq))
    simp only [keptSum, List.map_cons, List.sum_cons]
    by_cases h : droppedBy m pw.1
    · rw [if_pos h]
      constructor
      · intro heq
        exfalso
        linarith
      · intro hall
        exact absurd h (hall pw (List.mem_cons_self pw t))
    · rw [if_neg h, add_right_inj, ih htw, List.forall_mem_cons]
      simp [h]

end GridLemmas

section MiscLemmas

theorem npMod_nonneg (a b : ℚ) (hb : 0 < b) : 0 ≤ npMod a b := by
  unfold npMod
  have h1 : (⌊a / b⌋ : ℚ) ≤ a / b := Int.floor_le _
  have h1' : (⌊a / b⌋ : ℚ) * b ≤ a := (le_div_iff₀ hb).1 h1
  linarith

theorem npMod_lt (a b : ℚ) (hb : 0 < b) : npMod a b < b := by
  unfold npMod
  have h2 : a / b < ⌊a / b⌋ + 1 := Int.lt_floor_add_one _
  have h2' : a < ((⌊a / b⌋ : ℚ) + 1) * b := (div_lt_iff₀ hb).1 h2
  linarith

theorem sum_flatMapQ {σ : Type} (l : List σ) (f : σ → List ℚ) :
    (l.flatMap f).sum = (l.map (fun x => (f x).sum)).sum := by
  induction l with
  | nil => simp
  | cons a t ih => simp [List.flatMap_cons, ih]

theorem sum_map_flatMap {σ τ : Type} (l : List σ) (f : σ → List τ) (F : τ → ℚ) :
    ((l.flatMap f).map F).sum = (l.map (fun x => ((f x).map F).sum)).sum := by
  induction l with
  | nil => simp
  | cons a t ih => simp [List.flatMap_cons, ih]

theorem length_flatMapQ {σ τ : Type} (l : List σ) (f : σ → List τ) :
    (l.flatMap f).length = (l.map (fun x => (f x).length)).sum := by
  induction l with
  | nil => simp
  | cons a t ih => simp [List.flatMap_cons, ih]

end MiscLemmas

section SeedingLemmas

theorem foldl_append_pair {σ : Type} (cells : List σ) (p : σ → Bool)
    (f : σ → List (ℚ × ℚ)) (g : σ → List ℚ) (a : List (ℚ × ℚ)) (b : List ℚ) :
    cells.foldl (fun acc x => if p x then acc else (acc.1 ++ f x, acc.2 ++ g x)) (a, b)
      = (a ++ cells.flatMap (fun x => if p x then [] else f x),
         b ++ cells.flatMap (fun x => if p x then [] else g x)) := by
  induction cells generalizing a b with
  | nil => simp
  | cons c t ih =>
    rw [List.foldl_cons]
    by_cases h : p c
    · simp only [if_pos h, ih, List.flatMap_cons, if_pos h, List.nil_append]
    · simp only [if_neg h, ih, List.flatMap_cons, if_neg h, List.append_assoc]

/-- `_initialize_particles` characterized cell by cell: each positive cell
contributes `n_per_cell` drawn positions and `n_per_cell` copies of
`conc / n_per_cell`; non-positive cells contribute nothing. -/
theorem init_particles_eq (m : Model) (k : Nat) (draw : Nat → Nat → Nat → ℚ × ℚ) :
    init_particles m k draw =
      ((cellsOf m).flatMap (fun ij =>
          if getAt m.mp_conc ij.1 ij.2 ≤ 0 then []
          else (List.range k).map (draw ij.1 ij.2)),
       (cellsOf m).flatMap (fun ij =>
          if getAt m.mp_conc ij.1 ij.2 ≤ 0 then []
          else List.replicate k (getAt m.mp_conc ij.1 ij.2 / k))) := by
  have h := foldl_append_pair (cellsOf m)
    (fun ij => decide (getAt m.mp_conc ij.1 ij.2 ≤ 0))
    (fun ij => (List.range k).map (draw ij.1 ij.2))
    (fun ij => List.replicate k (getAt m.mp_conc ij.1 ij.2 / k)) [] []
  unfold init_particles
  simp only [decide_eq_true_eq] at h
  simpa using h

theorem row_sum_range (h : ℚ → ℚ) (row : List ℚ) :
    ((List.range row.length).map (fun j => h (row.getD j 0))).sum = (row.map h).sum := by
  induction row with
  | nil => simp
  | cons a t ih =>
    rw [List.length_cons, List.range_succ_eq_map, List.map_cons, List.map_map, List.sum_cons]
    simp only [Function.comp_def, List.getD_cons_succ, List.getD_cons_zero]
    rw [ih]
    simp

theorem grid_sum_range (h : ℚ → ℚ) (g : Grid) (C : Nat)
    (hrows : ∀ row ∈ g, row.length = C) :
    ((List.range g.length).map
        (fun i => ((List.range C).map (fun j => h (getAt g i j))).sum)).sum
      = (g.map (fun row => (row.map h).sum)).sum := by
  induction g with
  | nil => simp
  | cons r t ih =>
    have hr : r.length = C := hrows r (List.mem_cons_self r t)
    rw [List.length_cons, List.range_succ_eq_map, List.map_cons, List.map_map, List.sum_cons,
      List.map_cons, List.sum_cons]
    have htail : ∀ row ∈ t, row.length = C :=
      fun row hrow => hrows row (List.mem_cons_of_mem r hrow)
    have h0 : ((List.range C).map (fun j => h (getAt (r :: t) 0 j))).sum = (r.map h).sum := by
      rw [← hr]
      exact row_sum_range h r
    rw [h0]
    congr 1
    have hcomp : ((List.range t.length).map
        (fun i => ((List.range C).map (fun j => h (getAt t i j))).sum)).sum
          = (t.map fun row => (row.map h).sum).sum := ih htail
    rw [← hcomp]
    congr 1

theorem sum_over_cells (m : Model) (F : Nat × Nat → ℚ) :
    ((cellsOf m).map F).sum
      = ((List.range m.lats.length).map
          (fun i => ((List.range m.lons.length).map (fun j => F (i, j))).sum)).sum := by
  unfold cellsOf
  rw [sum_map_flatMap]
  congr 1
  apply List.map_congr_left
  intro i _
  rw [List.map_map]
  simp [Function.comp_def]

end SeedingLemmas

section MoreLemmas

theorem posSum_eq_gridSum (g : Grid) (h : CellsNonneg g) : posSum g = gridSum g := by
  unfold posSum gridSum
  congr 1
  apply List.map_congr_left
  intro row hrow
  have hrw : ∀ x ∈ row, (if x ≤ 0 then 0 else x) = id x := by
    intro x hx
    by_cases hx0 : x ≤ 0
    · have := h row hrow x hx
      simp only [if_pos hx0, id]
      linarith
    · simp [hx0]
  rw [List.map_congr_left hrw, List.map_id]

theorem init_weights_sum (m : Model) (k : Nat) (draw : Nat → Nat → Nat → ℚ × ℚ)
    (hk : 1 ≤ k) (hshape : HasShape m.mp_conc m.lats.length m.lons.length) :
    (init_particles m k draw).2.sum = posSum m.mp_conc := by
  rw [init_particles_eq]
  dsimp only
  rw [sum_flatMapQ]
  have hcell : ∀ ij : Nat × Nat,
      (if getAt m.mp_conc ij.1 ij.2 ≤ 0 then ([] : List ℚ)
        else List.replicate k (getAt m.mp_conc ij.1 ij.2 / k)).sum
      = (if getAt m.mp_conc ij.1 ij.2 ≤ 0 then 0 else getAt m.mp_conc ij.1 ij.2) := by
    intro ij
    by_cases h : getAt m.mp_conc ij.1 ij.2 ≤ 0
    · simp [h]
    · have hk0 : (k : ℚ) ≠ 0 := Nat.cast_ne_zero.2 (by omega)
      simp only [if_neg h, List.sum_replicate, nsmul_eq_mul]
      field_simp
  rw [List.map_congr_left (fun ij _ => hcell ij)]
  rw [sum_over_cells]
  rw [← hshape.1]
  exact grid_sum_range (fun x => if x ≤ 0 then 0 else x) m.mp_conc m.lons.length hshape.2

theorem init_lengths (m : Model) (k : Nat) (draw : Nat → Nat → Nat → ℚ × ℚ) :
    (init_particles m k draw).1.length = (init_particles m k draw).2.length := by
  rw [init_particles_eq]
  dsimp only
  rw [length_flatMapQ, length_flatMapQ]
  congr 1
  apply List.map_congr_left
  intro ij _
  by_cases h : getAt m.mp_conc ij.1 ij.2 ≤ 0 <;> simp [h]

theorem forall_zip_iff (positions : List (ℚ × ℚ)) (weights : List ℚ) (P : ℚ × ℚ → Prop)
    (hlen : positions.length = weights.length) :
    (∀ pw ∈ positions.zip weights, P pw.1) ↔ (∀ p ∈ positions, P p) := by
  constructor
  · intro h p hp
    have hm : p ∈ (positions.zip weights).map Prod.fst := by
      rw [List.map_fst_zip positions weights (le_of_eq hlen)]
      exact hp
    rcases List.mem_map.1 hm with ⟨pw, hpw, he⟩
    exact he ▸ h pw hpw
  · intro h pw hpw
    exact h pw.1 (List.of_mem_zip hpw).1

theorem zip_weights_sum (positions : List (ℚ × ℚ)) (weights : List ℚ)
    (hlen : positions.length = weights.length) :
    ((positions.zip weights).map Prod.snd).sum = weights.sum := by
  rw [List.map_snd_zip positions weights (le_of_eq hlen.symm)]

theorem npShape_npT (a : Grid) (hc : (a.headD []).length ≠ 0) :
    npShape (npT a) = ((a.headD []).length, a.length) := by
  unfold npShape npT
  obtain ⟨n, hn⟩ := Nat.exists_eq_succ_of_ne_zero hc
  rw [hn, List.range_succ_eq_map]
  simp

theorem npClip_lat_range (x : ℚ) : -90 ≤ npClip x (-90) 90 ∧ npClip x (-90) 90 ≤ 90 := by
  unfold npClip
  exact ⟨le_min (le_max_right x (-90)) (by norm_num), min_le_right _ _⟩

theorem wrapLon_range (m : Model) (lon : ℚ) :
    (0 ≤ npMin m.lons → 0 ≤ wrapLon m lon ∧ wrapLon m lon < 360) ∧
    (¬ 0 ≤ npMin m.lons → -180 ≤ wrapLon m lon ∧ wrapLon m lon < 180) := by
  unfold wrapLon
  constructor
  · intro h
    rw [if_pos h]
    exact ⟨npMod_nonneg _ _ (by norm_num), npMod_lt _ _ (by norm_num)⟩
  · intro h
    rw [if_neg h]
    have h1 := npMod_nonneg (lon + 180) 360 (by norm_num)
    have h2 := npMod_lt (lon + 180) 360 (by norm_num)
    constructor <;> linarith

theorem mem_apply_boundaries (m : Model) (positions : List (ℚ × ℚ)) (q : ℚ × ℚ)
    (hq : q ∈ apply_boundaries m positions) :
    ∃ p ∈ positions, q = (npClip p.1 (-90) 90, wrapLon m p.2) := by
  unfold apply_boundaries at hq
  rcases List.mem_map.1 hq with ⟨p, hp, he⟩
  exact ⟨p, hp, he.symm⟩

end MoreLemmas

section Claims

/-- C1, counterexample: on the unit-spacing axes `[0, 1, 2]` of `m1`, the
particle at latitude 2/5 lies inside the footprint
`[lats[0] - dlat/2, lats[0] + dlat/2)` of axis index 0, yet
`_particles_to_grid` deposits its whole weight at row index 1 — the left
insertion point of the sorted search — and row 0 stays empty, refuting the
claim that the weight is added to the cell containing the coordinate. -/
theorem deposit_left_insertion_cex :
    (m1.lats.getD 0 0 - dlat m1 / 2 ≤ 2/5 ∧ (2/5 : ℚ) < m1.lats.getD 0 0 + dlat m1 / 2) ∧
    particles_to_grid m1 [(2/5, 1)] [1] = [[0, 0, 0], [0, 1, 0], [0, 0, 0]] ∧
    getAt (particles_to_grid m1 [(2/5, 1)] [1]) 0 1 = 0 ∧
    getAt (particles_to_grid m1 [(2/5, 1)] [1]) 1 1 = 1 := by
  norm_num [particles_to_grid, depositOne, addAt, getAt, zerosLike, searchsorted, m1, dlat,
    List.countP_cons, List.replicate, List.set]

/-- C1, amended: deposition bins a particle at the left-insertion indices
`i = searchsorted(lats, lat)` and `j = searchsorted(lons, lon)` — the counts
of axis values strictly below the coordinates — whenever both indices are in
range, placing the particle's whole weight in cell `(i, j)` (for a particle in
the left half of a cell's footprint this is one past the containing index, the
half-cell bias of the spec's section 9). -/
theorem deposit_single_particle_binning (m : Model) (lat lon w : ℚ)
    (hshape : HasShape m.mp_conc m.lats.length m.lons.length)
    (hi : searchsorted m.lats lat < m.lats.length)
    (hj : searchsorted m.lons lon < m.lons.length) :
    getAt (particles_to_grid m [(lat, lon)] [w]) (searchsorted m.lats lat)
        (searchsorted m.lons lon) = w ∧
    gridSum (particles_to_grid m [(lat, lon)] [w]) = w := by
  have hz := shape_zerosLike m.mp_conc _ _ hshape
  have hzi : searchsorted m.lats lat < (zerosLike m.mp_conc).length := by
    rw [hz.1]; exact hi
  have hzj : searchsorted m.lons lon
      < ((zerosLike m.mp_conc).getD (searchsorted m.lats lat) []).length := by
    rw [hz.2 _ (getD_mem _ _ [] hzi)]; exact hj
  have hnd : ¬ droppedBy m (lat, lon) := not_not_intro ⟨hi, hj⟩
  have hdep : particles_to_grid m [(lat, lon)] [w]
      = depositOne m (zerosLike m.mp_conc) ((lat, lon), w) := rfl
  rw [hdep, depositOne_eq, if_neg hnd]
  constructor
  · rw [getAt_addAt_self _ _ _ _ hzi hzj, getAt_zerosLike, zero_add]
  · rw [gridSum_addAt _ _ _ _ hzi hzj, gridSum_zerosLike, zero_add]

theorem deposit_single_particle_binning_witness :
    getAt (particles_to_grid m1 [(1, 1)] [2]) (searchsorted m1.lats 1)
        (searchsorted m1.lons 1) = 2 ∧
    gridSum (particles_to_grid m1 [(1, 1)] [2]) = 2 :=
  deposit_single_particle_binning m1 1 1 2 (by decide) (by decide) (by decide)

/-- C2: with the all-zero concentration field of `m2`, seeding produces zero
particles, and `run_forecast` does not detect this: on the first step the
`positions[:, 0]` slice of `_velocity_at` hits the shape-`(0,)` empty position
array and raises IndexError, instead of returning the original grid as a
single-snapshot zero-length forecast. -/
theorem run_forecast_zero_seeding_raises (cosd : ℚ → ℚ)
    (draw : Nat → Nat → Nat → ℚ × ℚ) (stdLat : ℚ) (noise : Nat → List (ℚ × ℚ)) :
    init_particles m2 10 draw = ([], []) ∧
    run_forecast m2 cosd draw stdLat noise 10 1 1 (some 99) 24 = .error "IndexError" :=
  ⟨rfl, rfl⟩

/-- C3: the longitude angular-rate conversion of `_velocity_at` is not
guarded: its denominator `111000 * cos(radians(lat))` is exactly zero at
latitude 90, and with `u = 1` m/s the rate `dlon_dt` exceeds every bound `B`
already at latitudes strictly inside `(-90, 90)` — the returned rate is
neither clamped nor bounded. -/
theorem dlon_rate_pole_unbounded :
    lonRateDenom 90 = 0 ∧
    ∀ B : ℝ, ∃ lat : ℝ, 0 < lat ∧ lat < 90 ∧ B < dlon_dt 1 lat := by
  constructor
  · unfold lonRateDenom
    have h : (90 : ℝ) * (Real.pi / 180) = Real.pi / 2 := by ring
    rw [h, Real.cos_pi_div_two, mul_zero]
  · intro B
    set c : ℝ := 1 / (111000 * (|B| + 1)) with hc
    have hBpos : (0:ℝ) < |B| + 1 := by positivity
    have hc0 : 0 < c := by positivity
    have hc1 : c < 1 := by
      rw [hc, div_lt_one (by positivity)]
      nlinarith [abs_nonneg B]
    refine ⟨Real.arccos c * (180 / Real.pi), ?_, ?_, ?_⟩
    · have h1 := Real.arccos_pos.2 hc1
      have h2 : (0:ℝ) < 180 / Real.pi := by positivity
      exact mul_pos h1 h2
    · have harc : Real.arccos c < Real.pi / 2 := by
        rw [Real.arccos_eq_pi_div_two_sub_arcsin]
        have := Real.arcsin_pos.2 hc0
        linarith
      have hpi : (0:ℝ) < 180 / Real.pi := by positivity
      calc Real.arccos c * (180 / Real.pi)
          < (Real.pi / 2) * (180 / Real.pi) := mul_lt_mul_of_pos_right harc hpi
        _ = 90 := by
            field_simp
            ring
    · have harg : (Real.arccos c * (180 / Real.pi)) * (Real.pi / 180) = Real.arccos c := by
        field_simp
      unfold dlon_dt lonRateDenom
      rw [harg, Real.cos_arccos (by linarith) (le_of_lt hc1), hc]
      have h1 : (111000:ℝ) * (1 / (111000 * (|B| + 1))) = 1 / (|B| + 1) := by
        field_simp
      rw [h1, one_div_one_div]
      have := le_abs_self B
      linarith

/-- C4, counterexample: when the final snapshot `[[0]]` has no strictly
positive cell, `_cap_outliers` reports a zero cap, but the capping stage of
`run_forecast` still clips every saved snapshot to `[0, 0]`: the saved
snapshot `[[3]]` comes back as `[[0]]`, not unchanged — capping is not a
no-op for the whole run. -/
theorem cap_empty_final_zeroes_cex :
    positiveCells [[(0 : ℚ)]] = [] ∧
    cap_stage [[(0 : ℚ)]] [[[3]]] 99 = ([[0]], 0, 0, [[[0]]]) ∧
    (cap_stage [[(0 : ℚ)]] [[[3]]] 99).2.2.2 ≠ [[[(3 : ℚ)]]] := by
  norm_num [cap_stage, cap_outliers, positiveCells, clipGrid, npClip, List.filter]

/-- C4, amended: with no strictly positive cell in the final snapshot, the
reported cap and capped-cell count are zero and the final snapshot itself is
returned unchanged, but every saved snapshot is still clipped to `[0, 0]`, so
every cell of every saved snapshot comes back non-positive (positive history
cells are zeroed) rather than the snapshots being returned unchanged. -/
theorem cap_empty_final_spec (predicted : Grid) (grids : List Grid) (p : ℚ)
    (h : positiveCells predicted = []) :
    cap_stage predicted grids p
      = (predicted, 0, 0, grids.map (fun g => clipGrid g 0 0)) ∧
    ∀ g ∈ (cap_stage predicted grids p).2.2.2, ∀ row ∈ g, ∀ x ∈ row, x ≤ 0 := by
  have hlen : (positiveCells predicted).length = 0 := by rw [h]; rfl
  have hfull : cap_stage predicted grids p
      = (predicted, 0, 0, grids.map (fun g => clipGrid g 0 0)) := by
    unfold cap_stage cap_outliers
    rw [if_pos hlen]
  refine ⟨hfull, ?_⟩
  intro g hg row hrow x hx
  rw [hfull] at hg
  rcases List.mem_map.1 hg with ⟨g0, _, hg0⟩
  rw [← hg0] at hrow
  unfold clipGrid at hrow
  rcases List.mem_map.1 hrow with ⟨r0, _, hr0⟩
  rw [← hr0] at hx
  rcases List.mem_map.1 hx with ⟨x0, _, hx0⟩
  rw [← hx0]
  unfold npClip
  exact min_le_right _ _

theorem cap_empty_final_spec_witness :
    cap_stage [[(0:ℚ)]] [[[(2:ℚ)]], [[(0:ℚ)]]] 99
      = ([[(0:ℚ)]], 0, 0, [[[(2:ℚ)]], [[(0:ℚ)]]].map (fun g => clipGrid g 0 0)) ∧
    ∀ g ∈ (cap_stage [[(0:ℚ)]] [[[(2:ℚ)]], [[(0:ℚ)]]] 99).2.2.2,
      ∀ row ∈ g, ∀ x ∈ row, x ≤ 0 :=
  cap_empty_final_spec [[(0:ℚ)]] [[[(2:ℚ)]], [[(0:ℚ)]]] 99 rfl

/-- C5, counterexample: expected shape `(2, 3)`; the field `[[1, 2]]` has
shape `(1, 2)`, which is neither `(2, 3)` nor its transpose `(3, 2)`, yet
`_align_array_shapes` transposes it and accepts the result (shape `(2, 1)`,
still not the expected shape) — no fatal input error is raised and an
incompatible non-transpose field is accepted. -/
theorem align_no_error_cex :
    npShape [[(1:ℚ), 2]] = (1, 2) ∧ ((1:Nat), (2:Nat)) ≠ (2, 3) ∧
    ((1:Nat), (2:Nat)) ≠ (3, 2) ∧
    align_field (2, 3) [[(1:ℚ), 2]] = [[1], [2]] ∧
    npShape (align_field (2, 3) [[(1:ℚ), 2]]) ≠ (2, 3) := by
  norm_num [align_field, npShape, npT, List.range_succ]

/-- C5, amended: `_align_array_shapes` transposes a field exactly when its
shape differs from the expected shape (transpose-shaped or not) and never
raises: the aligned field has the expected shape iff the original shape was
the expected shape or its transpose; any other mismatch is accepted with a
wrong shape. -/
theorem align_shapes_spec (e : Nat × Nat) (a : Grid)
    (hrect : Rect a) (hc : (a.headD []).length ≠ 0) :
    (npShape a = e → align_field e a = a) ∧
    (npShape a ≠ e → align_field e a = npT a) ∧
    (npShape (align_field e a) = e ↔ npShape a = e ∨ npShape a = (e.2, e.1)) := by
  refine ⟨?_, ?_, ?_⟩
  · intro h
    unfold align_field
    rw [if_neg (not_not_intro h)]
  · intro h
    unfold align_field
    rw [if_pos h]
  · by_cases h : npShape a = e
    · unfold align_field
      rw [if_neg (not_not_intro h)]
      simp [h]
    · unfold align_field
      rw [if_pos h, npShape_npT a hc]
      constructor
      · intro he
        right
        unfold npShape
        rw [← he]
      · rintro (he | he)
        · exact absurd he h
        · unfold npShape at he
          have h1 : a.length = e.2 := congrArg Prod.fst he
          have h2 : (a.headD []).length = e.1 := congrArg Prod.snd he
          rw [h1, h2]

theorem align_shapes_spec_witness :
    (npShape [[(1:ℚ), 2], [3, 4], [5, 6]] = (2, 3) →
      align_field (2, 3) [[(1:ℚ), 2], [3, 4], [5, 6]] = [[(1:ℚ), 2], [3, 4], [5, 6]]) ∧
    (npShape [[(1:ℚ), 2], [3, 4], [5, 6]] ≠ (2, 3) →
      align_field (2, 3) [[(1:ℚ), 2], [3, 4], [5, 6]] = npT [[(1:ℚ), 2], [3, 4], [5, 6]]) ∧
    (npShape (align_field (2, 3) [[(1:ℚ), 2], [3, 4], [5, 6]]) = (2, 3) ↔
      npShape [[(1:ℚ), 2], [3, 4], [5, 6]] = (2, 3) ∨
      npShape [[(1:ℚ), 2], [3, 4], [5, 6]] = (3, 2)) :=
  align_shapes_spec (2, 3) [[(1:ℚ), 2], [3, 4], [5, 6]] (by decide) (by decide)

/-- C6, counterexample: the particle at `(-5, -5)` lies strictly below the
minimum latitude and longitude of `m2`'s envelope, yet `_particles_to_grid`
does not drop it: `searchsorted` returns index 0 on both axes and the whole
weight lands in cell `(0, 0)` — below-envelope mass is not "silently
dropped". -/
theorem deposit_below_min_cex :
    (-5 : ℚ) < m2.lats.getD 0 0 ∧ (-5 : ℚ) < m2.lons.getD 0 0 ∧
    particles_to_grid m2 [(-5, -5)] [1] = [[1, 0], [0, 0]] ∧
    gridSum (particles_to_grid m2 [(-5, -5)] [1]) = 1 := by
  norm_num [particles_to_grid, depositOne, addAt, getAt, gridSum, zerosLike, searchsorted, m2,
    List.countP_cons, List.replicate, List.set]

/-- C6, amended: only particles beyond the axis maxima are dropped — if the
latitude (or longitude) exceeds every axis value, `searchsorted` returns the
axis length, the bounds guard fails, and the weight is added to no cell; but
for a particle below the axis minima `searchsorted` returns 0 on both axes and
(on a nonempty grid) the weight is added to cell `(0, 0)`. -/
theorem deposit_drop_spec (m : Model) (g : Grid) (lat lon w : ℚ) :
    ((∀ x ∈ m.lats, x < lat) → depositOne m g ((lat, lon), w) = g) ∧
    ((∀ x ∈ m.lons, x < lon) → depositOne m g ((lat, lon), w) = g) ∧
    ((∀ x ∈ m.lats, ¬ x < lat) → searchsorted m.lats lat = 0) ∧
    ((∀ x ∈ m.lons, ¬ x < lon) → searchsorted m.lons lon = 0) ∧
    ((∀ x ∈ m.lats, ¬ x < lat) → (∀ x ∈ m.lons, ¬ x < lon) →
      0 < m.lats.length → 0 < m.lons.length →
      depositOne m g ((lat, lon), w) = addAt g 0 0 w) := by
  have hlen : ∀ (xs : List ℚ) (y : ℚ), (∀ x ∈ xs, x < y) → searchsorted xs y = xs.length := by
    intro xs y hxy
    unfold searchsorted
    rw [List.countP_eq_length]
    intro a ha
    simpa using hxy a ha
  have hzero : ∀ (xs : List ℚ) (y : ℚ), (∀ x ∈ xs, ¬ x < y) → searchsorted xs y = 0 := by
    intro xs y hxy
    unfold searchsorted
    rw [List.countP_eq_zero]
    intro a ha
    simpa using hxy a ha
  refine ⟨?_, ?_, fun hxy => hzero _ _ hxy, fun hxy => hzero _ _ hxy, ?_⟩
  · intro hxy
    simp only [depositOne]
    rw [hlen m.lats lat hxy]
    simp
  · intro hxy
    simp only [depositOne]
    rw [hlen m.lons lon hxy]
    simp
  · intro hla hlo h1 h2
    simp only [depositOne]
    rw [hzero m.lats lat hla, hzero m.lons lon hlo, if_pos ⟨h1, h2⟩]

theorem deposit_drop_spec_witness :
    depositOne m2 [[1, 1], [1, 1]] ((5, 5), 3) = [[1, 1], [1, 1]] ∧
    depositOne m2 [[1, 1], [1, 1]] ((-1, -1), 3) = addAt [[1, 1], [1, 1]] 0 0 3 :=
  ⟨(deposit_drop_spec m2 [[1, 1], [1, 1]] 5 5 3).1 (by decide),
   (deposit_drop_spec m2 [[1, 1], [1, 1]] (-1) (-1) 3).2.2.2.2
     (by decide) (by decide) (by decide) (by decide)⟩

/-- C7, counterexample: on the grid `[[-1], [2]]` (one negative cell) with one
particle per cell, seeding emits a single particle of weight 2, so the total
particle weight is 2 while the source grid sums to 1 — the claimed equality
with the grid total fails in exact arithmetic when a cell is negative. -/
theorem seeding_negative_cell_cex :
    (init_particles mNeg 1 draw0).2.sum = 2 ∧ gridSum mNeg.mp_conc = 1 ∧ (2 : ℚ) ≠ 1 := by
  norm_num [init_particles, cellsOf, getAt, gridSum, mNeg, draw0, List.range_succ,
    List.replicate]

/-- C7, amended: for `k ≥ 1`, seeding emits exactly `k` particles of weight
`c/k` per cell with positive concentration `c` (and none for zero or negative
cells), and the total emitted weight equals the sum of the positive cells of
the grid — which equals the grid total exactly when no cell is negative. -/
theorem seeding_weights_spec (m : Model) (k : Nat) (draw : Nat → Nat → Nat → ℚ × ℚ)
    (hk : 1 ≤ k) (hshape : HasShape m.mp_conc m.lats.length m.lons.length) :
    (init_particles m k draw).2
        = (cellsOf m).flatMap (fun ij =>
            if getAt m.mp_conc ij.1 ij.2 ≤ 0 then []
            else List.replicate k (getAt m.mp_conc ij.1 ij.2 / k)) ∧
    (init_particles m k draw).1.length = (init_particles m k draw).2.length ∧
    (init_particles m k draw).2.sum = posSum m.mp_conc ∧
    (CellsNonneg m.mp_conc → (init_particles m k draw).2.sum = gridSum m.mp_conc) := by
  refine ⟨?_, init_lengths m k draw, init_weights_sum m k draw hk hshape, ?_⟩
  · rw [init_particles_eq]
  · intro h
    rw [init_weights_sum m k draw hk hshape, posSum_eq_gridSum _ h]

theorem seeding_weights_spec_witness :
    (init_particles mPos 2 draw0).2
        = (cellsOf mPos).flatMap (fun ij =>
            if getAt mPos.mp_conc ij.1 ij.2 ≤ 0 then []
            else List.replicate 2 (getAt mPos.mp_conc ij.1 ij.2 / 2)) ∧
    (init_particles mPos 2 draw0).1.length = (init_particles mPos 2 draw0).2.length ∧
    (init_particles mPos 2 draw0).2.sum = posSum mPos.mp_conc ∧
    (init_particles mPos 2 draw0).2.sum = gridSum mPos.mp_conc := by
  have h := seeding_weights_spec mPos 2 draw0 (by decide) (by decide)
  exact ⟨h.1, h.2.1, h.2.2.1, h.2.2.2 (by decide)⟩

/-- C8: when the final snapshot has a strictly positive cell, the cap is
computed once as the `p`-th percentile of the final snapshot's strictly
positive cells (zeros excluded by the `conc > 0` filter), the final snapshot
and every saved snapshot are clipped to `[0, cap]` with that single value, and
consequently every cell of every returned snapshot is bounded by that one
final-snapshot cap — no snapshot is capped at a threshold from its own
values. -/
theorem cap_uniform_spec (predicted : Grid) (grids : List Grid) (p : ℚ)
    (h : positiveCells predicted ≠ []) :
    (cap_stage predicted grids p).2.2.1 = npPercentile (positiveCells predicted) p ∧
    (cap_stage predicted grids p).1
        = clipGrid predicted 0 (npPercentile (positiveCells predicted) p) ∧
    (cap_stage predicted grids p).2.1
        = countAbove predicted (npPercentile (positiveCells predicted) p) ∧
    (cap_stage predicted grids p).2.2.2
        = grids.map (fun g => clipGrid g 0 (npPercentile (positiveCells predicted) p)) ∧
    ∀ g ∈ (cap_stage predicted grids p).2.2.2, ∀ row ∈ g, ∀ x ∈ row,
      x ≤ npPercentile (positiveCells predicted) p := by
  have hlen : ¬ (positiveCells predicted).length = 0 := by
    simpa [List.length_eq_zero] using h
  have hfull : cap_stage predicted grids p
      = (clipGrid predicted 0 (npPercentile (positiveCells predicted) p),
         countAbove predicted (npPercentile (positiveCells predicted) p),
         npPercentile (positiveCells predicted) p,
         grids.map (fun g => clipGrid g 0 (npPercentile (positiveCells predicted) p))) := by
    unfold cap_stage cap_outliers
    rw [if_neg hlen]
  rw [hfull]
  refine ⟨rfl, rfl, rfl, rfl, ?_⟩
  intro g hg row hrow x hx
  rcases List.mem_map.1 hg with ⟨g0, _, hg0⟩
  rw [← hg0] at hrow
  unfold clipGrid at hrow
  rcases List.mem_map.1 hrow with ⟨r0, _, hr0⟩
  rw [← hr0] at hx
  rcases List.mem_map.1 hx with ⟨x0, _, hx0⟩
  rw [← hx0]
  unfold npClip
  exact min_le_right _ _

theorem cap_uniform_spec_witness :
    (cap_stage [[(1:ℚ), 2]] [[[(5:ℚ)]]] 50).2.2.1
        = npPercentile (positiveCells [[(1:ℚ), 2]]) 50 ∧
    (cap_stage [[(1:ℚ), 2]] [[[(5:ℚ)]]] 50).1
        = clipGrid [[(1:ℚ), 2]] 0 (npPercentile (positiveCells [[(1:ℚ), 2]]) 50) ∧
    (cap_stage [[(1:ℚ), 2]] [[[(5:ℚ)]]] 50).2.1
        = countAbove [[(1:ℚ), 2]] (npPercentile (positiveCells [[(1:ℚ), 2]]) 50) ∧
    (cap_stage [[(1:ℚ), 2]] [[[(5:ℚ)]]] 50).2.2.2
        = [[[(5:ℚ)]]].map (fun g => clipGrid g 0 (npPercentile (positiveCells [[(1:ℚ), 2]]) 50)) ∧
    ∀ g ∈ (cap_stage [[(1:ℚ), 2]] [[[(5:ℚ)]]] 50).2.2.2, ∀ row ∈ g, ∀ x ∈ row,
      x ≤ npPercentile (positiveCells [[(1:ℚ), 2]]) 50 :=
  cap_uniform_spec [[(1:ℚ), 2]] [[[(5:ℚ)]]] 50 (by decide)

/-- C9: every simulation step ends in `_apply_boundaries`, whose output
latitudes are clamped into `[-90, 90]` and whose longitudes are rewritten by
the modulo wrap `wrapLon` (not clamped) into `[0, 360)` when the grid's
minimum longitude is non-negative and into `[-180, 180)` otherwise, so the
invariant holds after every successful step. -/
theorem boundaries_invariant (m : Model) (cosd : ℚ → ℚ) (stdLat : ℚ)
    (noise : Nat → List (ℚ × ℚ)) (dt : ℚ) (step : Nat)
    (positions out : List (ℚ × ℚ))
    (hrun : run_step m cosd stdLat noise dt step positions = .ok out) :
    (∃ mid, out = apply_boundaries m mid) ∧
    ∀ q ∈ out,
      (-90 ≤ q.1 ∧ q.1 ≤ 90) ∧
      (usesLon360 m → 0 ≤ q.2 ∧ q.2 < 360) ∧
      (¬ usesLon360 m → -180 ≤ q.2 ∧ q.2 < 180) ∧
      ∃ p0 : ℚ × ℚ, q = (npClip p0.1 (-90) 90, wrapLon m p0.2) := by
  have hout : ∃ mid, out = apply_boundaries m mid := by
    unfold run_step at hrun
    cases hadv : advect_rk4 m cosd positions dt with
    | error e =>
      rw [hadv] at hrun
      simp only [Bind.bind, Except.bind] at hrun
      exact absurd hrun (by simp)
    | ok mid0 =>
      rw [hadv] at hrun
      simp only [Bind.bind, Except.bind, pure, Except.pure, Except.ok.injEq] at hrun
      exact ⟨add_diffusion mid0 stdLat cosd (noise step), hrun.symm⟩
  refine ⟨hout, ?_⟩
  intro q hq
  obtain ⟨mid, hmid⟩ := hout
  rw [hmid] at hq
  obtain ⟨p0, _, hp0⟩ := mem_apply_boundaries m mid q hq
  have hlat := npClip_lat_range p0.1
  have hlon := wrapLon_range m p0.2
  rw [hp0]
  exact ⟨hlat, fun h => hlon.1 h, fun h => hlon.2 h, ⟨p0, rfl⟩⟩

theorem boundaries_invariant_witness :
    run_step mNegLon (fun _ => 1) 0 (fun _ => [(0, 0)]) 3600 0 [(0, 1801/10)]
        = .ok [(0, -1799/10)] ∧
    ((∃ mid, [((0:ℚ), (-1799/10:ℚ))] = apply_boundaries mNegLon mid) ∧
      ∀ q ∈ [((0:ℚ), (-1799/10:ℚ))],
        (-90 ≤ q.1 ∧ q.1 ≤ 90) ∧
        (usesLon360 mNegLon → 0 ≤ q.2 ∧ q.2 < 360) ∧
        (¬ usesLon360 mNegLon → -180 ≤ q.2 ∧ q.2 < 180) ∧
        ∃ p0 : ℚ × ℚ, q = (npClip p0.1 (-90) 90, wrapLon mNegLon p0.2)) := by
  have hrun : run_step mNegLon (fun _ => 1) 0 (fun _ => [(0, 0)]) 3600 0 [(0, 1801/10)]
      = .ok [(0, -1799/10)] := by
    norm_num [run_step, advect_rk4, velocity_at, col, interpAt, addPos, smulPos,
      add_diffusion, apply_boundaries, npClip, wrapLon, npMin, npMod, mNegLon, searchsorted,
      getAt, List.countP_cons, bind, Except.bind, pure, Except.pure, List.zipWith]
  exact ⟨hrun, boundaries_invariant mNegLon _ _ _ _ _ _ _ hrun⟩

/-- C10, counterexample: a dropped particle of weight 0 leaves the deposited
total equal to the total particle weight even though a particle was dropped,
refuting "equality exactly when no particle is dropped" as stated for
merely non-negative weights. -/
theorem deposition_zero_weight_cex :
    droppedBy m2 ((5 : ℚ), (5 : ℚ)) ∧
    gridSum (particles_to_grid m2 [(5, 5)] [0]) = List.sum [(0 : ℚ)] := by
  constructor
  · decide
  · norm_num [particles_to_grid, depositOne, gridSum, zerosLike, searchsorted, m2,
      List.countP_cons]

/-- C10, amended: for equal-length position and weight arrays with
non-negative weights, the deposited grid has every cell non-negative and total
at most the total weight; the totals are equal whenever no particle is
dropped, and when every weight is strictly positive the equality holds exactly
when no particle is dropped. -/
theorem deposition_mass_spec (m : Model) (positions : List (ℚ × ℚ)) (weights : List ℚ)
    (hshape : HasShape m.mp_conc m.lats.length m.lons.length)
    (hlen : positions.length = weights.length)
    (hw : ∀ w ∈ weights, 0 ≤ w) :
    CellsNonneg (particles_to_grid m positions weights) ∧
    gridSum (particles_to_grid m positions weights) ≤ weights.sum ∧
    ((∀ p ∈ positions, ¬ droppedBy m p) →
      gridSum (particles_to_grid m positions weights) = weights.sum) ∧
    ((∀ w ∈ weights, 0 < w) →
      (gridSum (particles_to_grid m positions weights) = weights.sum ↔
        ∀ p ∈ positions, ¬ droppedBy m p)) := by
  have hz := shape_zerosLike m.mp_conc _ _ hshape
  have hw' : ∀ pw ∈ positions.zip weights, (0:ℚ) ≤ pw.2 :=
    fun pw hpw => hw pw.2 (List.of_mem_zip hpw).2
  have hsum : gridSum (particles_to_grid m positions weights)
      = keptSum m (positions.zip weights) := by
    unfold particles_to_grid
    rw [foldl_deposit_sum m _ _ hz, gridSum_zerosLike, zero_add]
  refine ⟨?_, ?_, ?_, ?_⟩
  · exact foldl_deposit_nonneg m _ _ (cellsNonneg_zerosLike _) hw'
  · rw [hsum]
    calc keptSum m (positions.zip weights)
        ≤ ((positions.zip weights).map Prod.snd).sum := keptSum_le m _ hw'
      _ = weights.sum := zip_weights_sum _ _ hlen
  · intro hnd
    rw [hsum,
      keptSum_of_no_drop m _
        ((forall_zip_iff positions weights (fun p => ¬ droppedBy m p) hlen).2 hnd),
      zip_weights_sum _ _ hlen]
  · intro hpos
    have hpos' : ∀ pw ∈ positions.zip weights, (0:ℚ) < pw.2 :=
      fun pw hpw => hpos pw.2 (List.of_mem_zip hpw).2
    rw [hsum, show weights.sum = ((positions.zip weights).map Prod.snd).sum from
      (zip_weights_sum _ _ hlen).symm]
    exact (keptSum_eq_iff m _ hpos').trans
      (forall_zip_iff positions weights (fun p => ¬ droppedBy m p) hlen)

theorem deposition_mass_spec_witness :
    CellsNonneg (particles_to_grid m2 [(0, 0)] [2]) ∧
    gridSum (particles_to_grid m2 [(0, 0)] [2]) ≤ List.sum [(2:ℚ)] ∧
    ((∀ p ∈ [((0:ℚ), (0:ℚ))], ¬ droppedBy m2 p) →
      gridSum (particles_to_grid m2 [(0, 0)] [2]) = List.sum [(2:ℚ)]) ∧
    ((∀ w ∈ [(2:ℚ)], 0 < w) →
      (gridSum (particles_to_grid m2 [(0, 0)] [2]) = List.sum [(2:ℚ)] ↔
        ∀ p ∈ [((0:ℚ), (0:ℚ))], ¬ droppedBy m2 p)) :=
  deposition_mass_spec m2 [(0, 0)] [2] (by decide) (by decide) (by decide)

end Claims

end MPT
